import Mathlib

/-!
Verification of the element-detector module of diagram-genie
(`getElementDetails`, `buildExplanationPrompt`, `buildDeepDivePrompt`,
`getElementContext`, `getTraversalOrder`).

The embedding below translates the TypeScript source faithfully:
* diagram elements are records with optional `text`/`name` fields and numeric
  fields that default to 0 when absent (the source reads them with `?? 0` /
  `|| 0`, which coincide on numbers, so the numeric fields are plain rationals
  with 0 standing for "absent");
* JS string truthiness (`s || d` falls through exactly on the empty string) is
  modelled by `strOr`;
* `Array.prototype.sort` with a numeric comparator is a stable sort and is
  modelled by `List.insertionSort` (a stable sort) on the comparator's key;
* `Math.sqrt`/`Math.round` on exact inputs are modelled over `ℚ` via squared
  distances and `roundSqrt`, which is proved below to agree with
  `round (Real.sqrt q)`;
* JS object keys (`Object.keys(indeg)`) iterate in insertion order, i.e. in
  the order graph nodes occur in the input; all traversal claims hypothesise
  pairwise-distinct node ids, under which this modelling is exact;
* the source's unbounded `while (queue.length > 0)` loop is modelled with
  explicit fuel `#nodes + 1`; under the distinct-id hypothesis each node is
  enqueued at most once, so the fuel never runs out (see `kahnLoop_nodup`).
-/

namespace DiagramGenie

/-- A connector binding record: the source reads
`binding?.elementId || binding?.id || null`. -/
structure BindingRef where
  elementId : Option String
  id : Option String
deriving DecidableEq

/-- A diagram element as consumed by the detector module. -/
structure Element where
  id : String
  type : String
  text : Option String
  name : Option String
  x : ℚ
  y : ℚ
  width : ℚ
  height : ℚ
  startBinding : Option BindingRef
  endBinding : Option BindingRef
deriving DecidableEq

/-- JS `s || d` on strings: the empty string is falsy. -/
def strOr (s d : String) : String := if s = "" then d else s

/-- JS `String.prototype.trim`: strip whitespace from both ends. -/
def jsTrim (s : String) : String :=
  String.mk (((s.data.dropWhile Char.isWhitespace).reverse.dropWhile
    Char.isWhitespace).reverse)

/-- JS `(element.text && element.text.trim())` coerced to an option:
`some` of the trimmed text when `text` is present and non-blank. -/
def trimmedText (e : Element) : Option String :=
  match e.text with
  | none => none
  | some t => if jsTrim t = "" then none else some (jsTrim t)

/-- The fixed `typeDescriptions` map of `getElementDetails`. -/
def typeDescriptions (t : String) : Option String :=
  if t = "rectangle" then some "Box"
  else if t = "diamond" then some "Decision diamond"
  else if t = "ellipse" then some "Oval"
  else if t = "arrow" then some "Connection arrow"
  else if t = "line" then some "Connecting line"
  else if t = "text" then some "Text label"
  else if t = "image" then some "Image"
  else if t = "freedraw" then some "Drawn shape"
  else none

/-- JS `s.charAt(0).toUpperCase() + s.slice(1)`. -/
def capitalize (s : String) : String :=
  match s.data with
  | [] => ""
  | c :: cs => String.mk (c.toUpper :: cs)

/-- `element.type || 'element'`. -/
def rawTypeOf (e : Element) : String := strOr e.type "element"

/-- The `typeLabel` computed by `getElementDetails`:
map lookup, falling back to the capitalized raw type. -/
def typeLabelOf (e : Element) : String :=
  match typeDescriptions (rawTypeOf e) with
  | some l => l
  | none => capitalize (rawTypeOf e)

/-- `getElementDetails` from the source: `null` on an absent element,
otherwise quoted trimmed text with the type label in parentheses (dropped
when the label is exactly "Text label"), or the bare type label. -/
def getElementDetails : Option Element → Option String
  | none => none
  | some e =>
    match trimmedText e with
    | some t =>
      if typeLabelOf e ≠ "Text label" then
        some ("\"" ++ t ++ "\" (" ++ typeLabelOf e ++ ")")
      else
        some ("\"" ++ t ++ "\"")
    | none => some (typeLabelOf e)

/-- The `ElementContext` interface (`distance` is optional there). -/
structure ElementContext where
  id : String
  text : String
  type : String
  distance : Option ℤ
deriving DecidableEq

/-- JS `Array.prototype.join(sep)`. -/
def joinSep (sep : String) : List String → String
  | [] => ""
  | [a] => a
  | a :: b :: rest => a ++ sep ++ joinSep sep (b :: rest)

/-- The neighbor descriptor used in the summary and both prompt builders:
`n.text ? `"..."` : n.type`. -/
def descriptor (n : ElementContext) : String :=
  if n.text ≠ "" then "\"" ++ n.text ++ "\"" else n.type

/-- `(element?.text && element.text.trim()) || (element?.name ?? 'this element')`
as computed by both prompt builders.  Note `??` only falls through on an
absent `name`, so a present empty-string `name` is used as-is. -/
def promptElementText : Option Element → String
  | none => "this element"
  | some e =>
    match trimmedText e with
    | some t => t
    | none =>
      match e.name with
      | some s => s
      | none => "this element"

/-- `buildExplanationPrompt` from the source. -/
def buildExplanationPrompt (element : Option Element) (diagramTopic : String)
    (neighbors : List ElementContext) : String :=
  let elementText := promptElementText element
  let neighborStr :=
    if neighbors ≠ [] then
      "Nearby elements: " ++ joinSep ", " ((neighbors.take 4).map descriptor) ++ "."
    else ""
  "Diagram topic: \"" ++ diagramTopic ++ "\". " ++ neighborStr ++
  "\nExplain \"" ++ elementText ++ "\" in 2-3 sentences. DO NOT start with \"This element\", \"The box\", \"The rectangle\", or any shape label. Start directly with its purpose and function in the diagram. Then describe how it connects to nearby elements and why it matters."

/-- `buildDeepDivePrompt` from the source. -/
def buildDeepDivePrompt (element : Option Element) (diagramTopic : String)
    (neighbors : List ElementContext) : String :=
  let elementText := promptElementText element
  let neighborStr :=
    if neighbors ≠ [] then
      "Nearby elements include: " ++ joinSep ", " ((neighbors.take 6).map descriptor) ++ "."
    else ""
  "Diagram topic: \"" ++ diagramTopic ++ "\". " ++ neighborStr ++
  "\nProvide a detailed explanation of \"" ++ elementText ++ "\". DO NOT start with \"This element\", \"The box\", \"The rectangle\", or any shape label. Start directly with its function.\nInclude:\n1) A clear description of its function and role in the diagram\n2) Two short concrete examples or scenarios illustrating its role\n3) One simple mnemonic to remember it\nUse short paragraphs and bullet points. Focus on this element's role in the diagram, not generic definitions."

/-- Center abscissa `(x ?? 0) + (width ?? 0) / 2`. -/
def centerX (e : Element) : ℚ := e.x + e.width / 2

/-- Center ordinate `(y ?? 0) + (height ?? 0) / 2`. -/
def centerY (e : Element) : ℚ := e.y + e.height / 2

/-- Squared Euclidean center-to-center distance `dx*dx + dy*dy`; the source
compares `Math.sqrt` of this against 400 and rounds it, both of which are
reproduced exactly over `ℚ` below. -/
def sqDist (a b : Element) : ℚ :=
  (centerX b - centerX a) ^ 2 + (centerY b - centerY a) ^ 2

/-- `Math.round (Math.sqrt q)` for a rational `q ≥ 0`, computed exactly:
`⌊√q + 1/2⌋ = (⌊√(4q)⌋ + 1) / 2`.  Proved equal to `round (Real.sqrt q)`
in `roundSqrt_eq_round`. -/
def roundSqrt (q : ℚ) : ℕ := (Nat.sqrt (⌊4 * q⌋).toNat + 1) / 2

/-- The `ElementContext` record pushed for a retained neighbor `other` of the
focal element `el`. -/
def neighborEntry (el other : Element) : ElementContext where
  id := other.id
  text := (trimmedText other).getD (other.name.getD "")
  type := rawTypeOf other
  distance := some (roundSqrt (sqDist el other))

/-- The retained neighbors in input order: every other element (by `id`)
whose center lies strictly within 400 units (`dist < 400`, i.e. squared
distance `< 160000`). -/
def rawNeighbors (el : Element) (all : List Element) : List ElementContext :=
  (all.filter fun o => decide (o.id ≠ el.id ∧ sqDist el o < 160000)).map
    (neighborEntry el)

/-- Sort key of the comparator `(a.distance ?? 0) - (b.distance ?? 0)`. -/
def ctxKey (n : ElementContext) : ℤ := n.distance.getD 0

/-- The comparator's total preorder. -/
def ctxLE (a b : ElementContext) : Prop := ctxKey a ≤ ctxKey b

instance : DecidableRel ctxLE := fun a b => by unfold ctxLE; infer_instance

instance : IsTotal ElementContext ctxLE := ⟨fun a b => le_total _ _⟩

instance : IsTrans ElementContext ctxLE := ⟨fun _ _ _ => le_trans⟩

/-- The main text of the focal summary:
`(element.text && trim) || (element.name ?? '') || typeLabel`. -/
def mainTextOf (e : Element) : String :=
  strOr ((trimmedText e).getD (e.name.getD "")) (rawTypeOf e)

/-- Result record of `getElementContext`. -/
structure ContextResult where
  summary : String
  neighbors : List ElementContext
deriving DecidableEq

/-- `getElementContext` from the source: `{summary: '', neighbors: []}` on an
absent focal element; otherwise the proximity-filtered neighbors, stably
sorted ascending by rounded distance, together with a one-line summary whose
"connected/near" clause is present exactly when the joined descriptor string
is non-empty. -/
def getElementContext : Option Element → List Element → ContextResult
  | none, _ => { summary := "", neighbors := [] }
  | some el, allElements =>
    let neighbors := List.insertionSort ctxLE (rawNeighbors el allElements)
    let typeLabel := rawTypeOf el
    let mainText := mainTextOf el
    let neighborList := joinSep ", " ((neighbors.take 4).map descriptor)
    let summary :=
      if neighborList ≠ "" then
        mainText ++ " (" ++ typeLabel ++ ") — connected/near: " ++ neighborList
      else
        mainText ++ " (" ++ typeLabel ++ ")"
    { summary := summary, neighbors := neighbors }

/-! ### Traversal reconstruction (`getTraversalOrder`) -/

/-- `e.type === 'arrow' || e.type === 'line'` (raw type, no default). -/
def isConnector (e : Element) : Bool := e.type = "arrow" || e.type = "line"

/-- `allElements.filter(e => e.type !== 'arrow' && e.type !== 'line')`. -/
def graphNodes (all : List Element) : List Element :=
  all.filter fun e => !(isConnector e)

/-- The graph-node ids, in input order. -/
def graphIds (all : List Element) : List String :=
  (graphNodes all).map (·.id)

/-- `binding?.elementId || binding?.id || null` (empty strings are falsy). -/
def resolveBinding : Option BindingRef → Option String
  | none => none
  | some b =>
    let s := strOr (b.elementId.getD "") (b.id.getD "")
    if s = "" then none else some s

/-- The directed edge a connector contributes, when both bindings resolve to
ids present in the graph-node set. -/
def connectorEdge (ids : List String) (e : Element) : Option (String × String) :=
  if isConnector e then
    match resolveBinding e.startBinding, resolveBinding e.endBinding with
    | some s, some t => if s ∈ ids ∧ t ∈ ids then some (s, t) else none
    | _, _ => none
  else none

/-- Appends each element of `l` to `acc` unless already present — the
`if (!set.has(x)) add` dedup pattern of the source, in order. -/
def dedupAppend (acc : List α) (l : List α) [DecidableEq α] : List α :=
  l.foldl (fun acc p => if p ∈ acc then acc else acc ++ [p]) acc

/-- The deduplicated edge list derived from connector bindings, in input
order. -/
def edgeList (all : List Element) : List (String × String) :=
  dedupAppend [] (all.filterMap (connectorEdge (graphIds all)))

/-- The positional comparator `(a.x||0)-(b.x||0) || (a.y||0)-(b.y||0)`:
sort by `x` ascending then `y` ascending. -/
def posLE (a b : Element) : Prop := a.x < b.x ∨ (a.x = b.x ∧ a.y ≤ b.y)

instance : DecidableRel posLE := fun a b => by unfold posLE; infer_instance

instance : IsTotal Element posLE := by
  constructor
  intro a b
  unfold posLE
  rcases lt_trichotomy a.x b.x with h | h | h
  · exact Or.inl (Or.inl h)
  · rcases le_total a.y b.y with h2 | h2
    · exact Or.inl (Or.inr ⟨h, h2⟩)
    · exact Or.inr (Or.inr ⟨h.symm, h2⟩)
  · exact Or.inr (Or.inl h)

instance : IsTrans Element posLE := by
  constructor
  intro a b c hab hbc
  unfold posLE at *
  rcases hab with h | ⟨hx, hy⟩
  · rcases hbc with h2 | ⟨hx2, _⟩
    · exact Or.inl (h.trans h2)
    · exact Or.inl (hx2 ▸ h)
  · rcases hbc with h2 | ⟨hx2, hy2⟩
    · exact Or.inl (hx ▸ h2)
    · exact Or.inr ⟨hx.trans hx2, hy.trans hy2⟩

/-- Consecutive pairs `l[i] → l[i+1]` of a list. -/
def chainPairs : List String → List (String × String)
  | a :: b :: rest => (a, b) :: chainPairs (b :: rest)
  | _ => []

/-- The fallback heuristic edges: chain the graph nodes sorted by
`(x asc, y asc)` (stable), deduplicating as the source does. -/
def fallbackEdges (all : List Element) : List (String × String) :=
  let sorted := (List.insertionSort posLE (graphNodes all)).map (·.id)
  dedupAppend [] (chainPairs sorted)

/-- The edges actually used: binding-derived edges when at least one exists
(`Object.values(adj).some(s => s.size > 0)`), else the positional chain. -/
def effectiveEdges (all : List Element) : List (String × String) :=
  if edgeList all = [] then fallbackEdges all else edgeList all

/-- Successors of `x`: the adjacency Set `adj[x]` in insertion order. -/
def succsOf (edges : List (String × String)) (x : String) : List String :=
  (edges.filter fun p => p.1 = x).map (·.2)

/-- In-degree of `x`: the number of (deduplicated) edges into `x`. -/
def indegOf (edges : List (String × String)) (x : String) : ℤ :=
  ((edges.filter fun p => p.2 = x).length : ℤ)

/-- One dequeue's successor pass: `for nb of adj[id]` decrements the
in-degree of each successor and collects those that hit exactly 0, in
order. -/
def processSuccs : List String → (String → ℤ) → (String → ℤ) × List String
  | [], indeg => (indeg, [])
  | nb :: rest, indeg =>
    let v := indeg nb - 1
    let r := processSuccs rest (fun x => if x = nb then v else indeg x)
    (r.1, (if v = 0 then [nb] else []) ++ r.2)

/-- The `while (queue.length > 0)` Kahn walk, with explicit fuel.  Each
iteration dequeues the head, appends it to the output order and enqueues the
successors whose in-degree reaches 0. -/
def kahnLoop (adj : String → List String) :
    Nat → (String → ℤ) → List String → List String → List String
  | 0, _, _, order => order
  | _ + 1, _, [], order => order
  | fuel + 1, indeg, id :: queue, order =>
    let r := processSuccs (adj id) indeg
    kahnLoop adj fuel r.1 (queue ++ r.2) (order ++ [id])

/-- `for id of allNodeIds: if (!order.includes(id)) order.push(id)`. -/
def appendMissing (order : List String) (ids : List String) : List String :=
  ids.foldl (fun acc id => if id ∈ acc then acc else acc ++ [id]) order

/-- The seed queue: ids with in-degree 0, in key-insertion order
(`Object.keys(indeg)` lists each distinct id once, at its first
occurrence). -/
def seedQueue (ids : List String) (edges : List (String × String)) : List String :=
  (dedupAppend [] ids).filter fun id => decide (indegOf edges id = 0)

/-- The portion of the traversal produced by the Kahn walk itself. -/
def kahnVisited (ids : List String) (edges : List (String × String)) : List String :=
  kahnLoop (succsOf edges) (ids.length + 1) (indegOf edges) (seedQueue ids edges) []

/-- Traversal over an id/edge graph: Kahn walk, then unreached ids appended
in original order. -/
def traversalFromGraph (ids : List String) (edges : List (String × String)) :
    List String :=
  appendMissing (kahnVisited ids edges) ids

/-- `getTraversalOrder` from the source. -/
def getTraversalOrder (allElements : List Element) : List String :=
  if allElements = [] then []
  else traversalFromGraph (graphIds allElements) (effectiveEdges allElements)

/-! ### Concrete scenario inputs used by the claims -/

/-- A plain rectangle node at a given position, no text. -/
def mkNode (id : String) (x y : ℚ) : Element where
  id := id
  type := "rectangle"
  text := none
  name := none
  x := x
  y := y
  width := 0
  height := 0
  startBinding := none
  endBinding := none

/-- An arrow with both bindings resolved. -/
def mkArrow (id s t : String) : Element where
  id := id
  type := "arrow"
  text := none
  name := none
  x := 0
  y := 0
  width := 0
  height := 0
  startBinding := some { elementId := some s, id := none }
  endBinding := some { elementId := some t, id := none }

/-- The focal node of the five-distance proximity scene. -/
def focal5 : Element := mkNode "focal" 0 0

/-- Focal node plus five others at center distances 50, 100, 399, 400, 500. -/
def scene5 : List Element :=
  [focal5, mkNode "n50" 50 0, mkNode "n100" 100 0, mkNode "n399" 399 0,
   mkNode "n400" 400 0, mkNode "n500" 500 0]

/-- The two-node cycle `A→B→A` from the spec. -/
def twoCycle : List Element :=
  [mkNode "A" 0 0, mkNode "B" 100 0, mkArrow "e1" "A" "B", mkArrow "e2" "B" "A"]

/-- Three nodes with no connectors, exercising the positional fallback. -/
def fallbackScene : List Element :=
  [mkNode "P" 300 0, mkNode "Q" 100 50, mkNode "R" 100 20]

/-- Four nodes with binding edges `A→B`, `B→C` and an isolated `D`. -/
def chainScene : List Element :=
  [mkNode "A" 0 0, mkNode "B" 100 0, mkNode "C" 200 0, mkNode "D" 500 500,
   mkArrow "e1" "A" "B", mkArrow "e2" "B" "C"]

/-! ### Arithmetic bridges: exact models of `Math.sqrt` / `Math.round` -/

lemma sqDist_nonneg (a b : Element) : 0 ≤ sqDist a b := by
  unfold sqDist
  positivity

/-- `Math.sqrt q < 400` iff `q < 160000`, over the reals. -/
lemma sqrt_lt_400 (q : ℚ) : Real.sqrt (q : ℝ) < 400 ↔ q < 160000 := by
  rw [Real.sqrt_lt' (by norm_num : (0:ℝ) < 400)]
  constructor
  · intro h
    exact_mod_cast h
  · intro h
    have : (q : ℝ) < 160000 := by exact_mod_cast h
    linarith [this]

/-- `roundSqrt` computes `Math.round (Math.sqrt q)` exactly. -/
lemma roundSqrt_eq_round (q : ℚ) (hq : 0 ≤ q) :
    (roundSqrt q : ℤ) = round (Real.sqrt (q : ℝ)) := by
  have hq4 : (0:ℚ) ≤ 4 * q := by linarith
  set s : ℝ := Real.sqrt (q : ℝ) with hs_def
  have hs0 : 0 ≤ s := Real.sqrt_nonneg _
  have hs2 : s ^ 2 = (q : ℝ) := Real.sq_sqrt (by exact_mod_cast hq)
  set m : ℕ := (⌊(4:ℚ) * q⌋).toNat with hm_def
  have hfl0 : (0:ℤ) ≤ ⌊(4:ℚ) * q⌋ := Int.floor_nonneg.mpr hq4
  have hmq : (m : ℚ) ≤ 4 * q := by
    have h1 : ((⌊(4:ℚ) * q⌋ : ℤ) : ℚ) ≤ 4 * q := Int.floor_le _
    have h2 : ((m : ℤ) : ℚ) = ((⌊(4:ℚ) * q⌋ : ℤ) : ℚ) := by
      rw [hm_def, Int.toNat_of_nonneg hfl0]
    push_cast at h2 ⊢
    linarith [h1, h2.le, h2.ge]
  have hqm : 4 * q < (m : ℚ) + 1 := by
    have h1 : 4 * q < ((⌊(4:ℚ) * q⌋ : ℤ) : ℚ) + 1 := Int.lt_floor_add_one _
    have h2 : ((m : ℤ) : ℚ) = ((⌊(4:ℚ) * q⌋ : ℤ) : ℚ) := by
      rw [hm_def, Int.toNat_of_nonneg hfl0]
    push_cast at h2 ⊢
    linarith [h1, h2.le, h2.ge]
  set r : ℕ := Nat.sqrt m with hr_def
  -- r ≤ 2s
  have h4q : ((4:ℚ) * q : ℝ) = (2 * s) ^ 2 := by
    push_cast
    rw [mul_pow, hs2]
    norm_num
  have hr_le : (r : ℝ) ≤ 2 * s := by
    have h1 : (r:ℝ) ^ 2 ≤ (m : ℝ) := by
      have := Nat.sqrt_le' m
      exact_mod_cast this
    have h2 : (m : ℝ) ≤ (2*s)^2 := by
      have : ((m : ℚ) : ℝ) ≤ (((4:ℚ) * q : ℚ) : ℝ) := by exact_mod_cast hmq
      rw [← h4q]
      push_cast at this ⊢
      linarith
    nlinarith [hs0, h1, h2]
  have hr_gt : 2 * s < (r : ℝ) + 1 := by
    have h1 : (m : ℝ) + 1 ≤ ((r:ℝ) + 1) ^ 2 := by
      have := Nat.succ_le_succ_sqrt' m
      exact_mod_cast this
    have h2 : ((2*s)^2 : ℝ) < (m : ℝ) + 1 := by
      rw [← h4q]
      have : (((4:ℚ) * q : ℚ) : ℝ) < ((m : ℚ) : ℝ) + 1 := by exact_mod_cast hqm
      push_cast at this ⊢
      linarith
    nlinarith [hs0, h1, h2]
  -- now floor (s + 1/2) = (r + 1) / 2
  set n : ℕ := (r + 1) / 2 with hn_def
  have hpar1 : 2 * n ≤ r + 1 := by omega
  have hpar2 : r ≤ 2 * n := by omega
  have c1 : (2 * n : ℝ) ≤ (r : ℝ) + 1 := by exact_mod_cast hpar1
  have c2 : (r : ℝ) ≤ (2 * n : ℝ) := by exact_mod_cast hpar2
  rw [round_eq]
  unfold roundSqrt
  rw [← hm_def, ← hr_def, ← hn_def]
  symm
  rw [Int.floor_eq_iff]
  constructor
  · push_cast
    linarith
  · push_cast
    linarith


/-! ### Neighborhood engine lemmas -/

/-- Membership in the retained-neighbor list, before sorting. -/
lemma mem_rawNeighbors {el : Element} {all : List Element} {nc : ElementContext} :
    nc ∈ rawNeighbors el all ↔
      ∃ o, o ∈ all ∧ o.id ≠ el.id ∧ sqDist el o < 160000 ∧ nc = neighborEntry el o := by
  unfold rawNeighbors
  rw [List.mem_map]
  constructor
  · rintro ⟨o, ho, rfl⟩
    rw [List.mem_filter, decide_eq_true_eq] at ho
    exact ⟨o, ho.1, ho.2.1, ho.2.2, rfl⟩
  · rintro ⟨o, ho, h1, h2, rfl⟩
    exact ⟨o, List.mem_filter.mpr ⟨ho, by rw [decide_eq_true_eq]; exact ⟨h1, h2⟩⟩, rfl⟩

/-- The neighbors returned by `getElementContext` are the sorted retained
neighbors. -/
lemma context_neighbors_eq (el : Element) (all : List Element) :
    (getElementContext (some el) all).neighbors =
      List.insertionSort ctxLE (rawNeighbors el all) := rfl

lemma mem_context_neighbors {el : Element} {all : List Element} {nc : ElementContext} :
    nc ∈ (getElementContext (some el) all).neighbors ↔ nc ∈ rawNeighbors el all := by
  rw [context_neighbors_eq]
  exact (List.perm_insertionSort ctxLE _).mem_iff

/-- Inserting at the comparator's position commutes with filtering one key
class: the new element lands in front of its equals, behind smaller keys. -/
lemma orderedInsert_filter_key (d : ℤ) (a : ElementContext) :
    ∀ l : List ElementContext,
      (List.orderedInsert ctxLE a l).filter (fun x => decide (ctxKey x = d)) =
        if ctxKey a = d then a :: l.filter (fun x => decide (ctxKey x = d))
        else l.filter (fun x => decide (ctxKey x = d))
  | [] => by
    simp only [List.orderedInsert_nil, List.filter]
    split_ifs with h <;> simp [h]
  | b :: t => by
    by_cases hab : ctxLE a b
    · rw [List.orderedInsert_of_le _ _ hab]
      by_cases had : ctxKey a = d
      · simp [List.filter_cons, had]
      · simp [List.filter_cons, had]
    · rw [List.orderedInsert, if_neg hab, List.filter_cons]
      have hba : ctxKey b < ctxKey a := by
        unfold ctxLE at hab
        omega
      by_cases had : ctxKey a = d
      · have hbd : ¬(ctxKey b = d) := by omega
        simp [List.filter_cons, hbd, had, orderedInsert_filter_key d a t]
      · by_cases hbd : ctxKey b = d
        · simp [List.filter_cons, hbd, had, orderedInsert_filter_key d a t]
        · simp [List.filter_cons, hbd, had, orderedInsert_filter_key d a t]

/-- Stability of the sort: each distance class keeps its input order. -/
lemma insertionSort_filter_key (d : ℤ) :
    ∀ l : List ElementContext,
      (List.insertionSort ctxLE l).filter (fun x => decide (ctxKey x = d)) =
        l.filter (fun x => decide (ctxKey x = d))
  | [] => rfl
  | a :: l => by
    rw [List.insertionSort, orderedInsert_filter_key, List.filter_cons]
    by_cases had : ctxKey a = d
    · simp [had, insertionSort_filter_key d l]
    · simp [had, insertionSort_filter_key d l]


/-! ### Concrete proximity-scene computations -/

/-- Computes `roundSqrt` from a bracketing of the integer square root. -/
lemma roundSqrt_val {q : ℚ} {m s : ℕ} (h1 : (⌊4 * q⌋).toNat = m)
    (h2 : s * s ≤ m) (h3 : m < (s + 1) * (s + 1)) :
    roundSqrt q = (s + 1) / 2 := by
  unfold roundSqrt
  rw [h1, (Nat.eq_sqrt.mpr ⟨h2, h3⟩).symm]

lemma sqDist_mkNode (i1 i2 : String) (x1 y1 x2 y2 : ℚ) :
    sqDist (mkNode i1 x1 y1) (mkNode i2 x2 y2) = (x2 - x1) ^ 2 + (y2 - y1) ^ 2 := by
  unfold sqDist centerX centerY mkNode
  norm_num

lemma toNat_helper (z : ℤ) (n : ℕ) (h : z = (n : ℤ)) : z.toNat = n := by
  rw [h]
  rfl

lemma roundSqrt_2500 : roundSqrt 2500 = 50 := by
  rw [roundSqrt_val (m := 10000) (s := 100)
    (toNat_helper _ _ (by norm_num)) (by norm_num) (by norm_num)]

lemma roundSqrt_10000 : roundSqrt 10000 = 100 := by
  rw [roundSqrt_val (m := 40000) (s := 200)
    (toNat_helper _ _ (by norm_num)) (by norm_num) (by norm_num)]

lemma roundSqrt_159201 : roundSqrt 159201 = 399 := by
  rw [roundSqrt_val (m := 636804) (s := 798)
    (toNat_helper _ _ (by norm_num)) (by norm_num) (by norm_num)]

lemma entry_mk (i : String) (x y : ℚ) (d : ℕ)
    (hd : roundSqrt (sqDist focal5 (mkNode i x y)) = d) :
    neighborEntry focal5 (mkNode i x y) = ⟨i, "", "rectangle", some (d : ℤ)⟩ := by
  simp [neighborEntry, mkNode, trimmedText, rawTypeOf, strOr]
  exact_mod_cast hd

lemma dist_focal5 (i : String) (x y : ℚ) :
    sqDist focal5 (mkNode i x y) = x ^ 2 + y ^ 2 := by
  unfold focal5
  rw [sqDist_mkNode]
  ring

lemma cond_near (i : String) (x y : ℚ) (hi : i ≠ "focal")
    (hx : x ^ 2 + y ^ 2 < 160000) :
    (decide ((mkNode i x y).id ≠ focal5.id ∧
      sqDist focal5 (mkNode i x y) < 160000)) = true := by
  rw [decide_eq_true_eq, dist_focal5]
  exact ⟨by simp [mkNode, focal5, hi], hx⟩

lemma cond_far (i : String) (x y : ℚ) (hx : ¬(x ^ 2 + y ^ 2 < 160000)) :
    (decide ((mkNode i x y).id ≠ focal5.id ∧
      sqDist focal5 (mkNode i x y) < 160000)) = false := by
  rw [decide_eq_false_iff_not, dist_focal5]
  rintro ⟨-, h⟩
  exact hx h

lemma cond_self :
    (decide (focal5.id ≠ focal5.id ∧ sqDist focal5 focal5 < 160000)) = false := by
  simp

/-- The retained-neighbor list of the five-distance scene, computed. -/
lemma raw5 :
    rawNeighbors focal5 scene5 =
      [⟨"n50", "", "rectangle", some 50⟩, ⟨"n100", "", "rectangle", some 100⟩,
       ⟨"n399", "", "rectangle", some 399⟩] := by
  unfold rawNeighbors scene5
  rw [List.filter_cons, List.filter_cons, List.filter_cons, List.filter_cons,
    List.filter_cons, List.filter_cons, List.filter_nil, cond_self,
    cond_near "n50" 50 0 (by decide) (by norm_num),
    cond_near "n100" 100 0 (by decide) (by norm_num),
    cond_near "n399" 399 0 (by decide) (by norm_num),
    cond_far "n400" 400 0 (by norm_num),
    cond_far "n500" 500 0 (by norm_num)]
  simp only [if_true, if_false, Bool.false_eq_true, List.map_cons, List.map_nil]
  rw [entry_mk "n50" 50 0 50 (by rw [dist_focal5]; norm_num [roundSqrt_2500]),
    entry_mk "n100" 100 0 100 (by rw [dist_focal5]; norm_num [roundSqrt_10000]),
    entry_mk "n399" 399 0 399 (by rw [dist_focal5]; norm_num [roundSqrt_159201])]
  norm_num

/-- The sorted neighbor list of the five-distance scene equals the retained
list (already ascending). -/
lemma neighbors5 :
    (getElementContext (some focal5) scene5).neighbors =
      [⟨"n50", "", "rectangle", some 50⟩, ⟨"n100", "", "rectangle", some 100⟩,
       ⟨"n399", "", "rectangle", some 399⟩] := by
  rw [context_neighbors_eq, raw5]
  exact List.Sorted.insertionSort_eq (by decide)


/-! ### Summary formatting helpers -/

lemma strOr_ne_empty (s d : String) (hd : d ≠ "") : strOr s d ≠ "" := by
  unfold strOr
  split_ifs with h
  · exact hd
  · exact h

lemma descriptor_ne_empty (n : ElementContext) (h : n.type ≠ "") :
    descriptor n ≠ "" := by
  unfold descriptor
  split_ifs with ht
  · intro heq
    have := congrArg String.data heq
    simp [String.data_append] at this
  · exact h

lemma joinSep_cons_ne_empty (a : String) (rest : List String) (ha : a ≠ "") :
    joinSep ", " (a :: rest) ≠ "" := by
  cases rest with
  | nil => exact ha
  | cons b t =>
    show a ++ ", " ++ joinSep ", " (b :: t) ≠ ""
    intro heq
    have := congrArg String.data heq
    simp [String.data_append] at this

lemma neighbor_type_ne_empty {el : Element} {all : List Element}
    {nc : ElementContext} (h : nc ∈ (getElementContext (some el) all).neighbors) :
    nc.type ≠ "" := by
  rw [mem_context_neighbors, mem_rawNeighbors] at h
  obtain ⟨o, -, -, -, rfl⟩ := h
  show rawTypeOf o ≠ ""
  exact strOr_ne_empty _ _ (by decide)

/-- The summary, characterized by emptiness of the neighbor list rather than
of the joined descriptor string (the two agree because descriptors are never
empty). -/
lemma summary_spec (el : Element) (all : List Element) :
    (getElementContext (some el) all).summary =
      if (getElementContext (some el) all).neighbors = [] then
        mainTextOf el ++ " (" ++ rawTypeOf el ++ ")"
      else
        mainTextOf el ++ " (" ++ rawTypeOf el ++ ") — connected/near: " ++
          joinSep ", " (((getElementContext (some el) all).neighbors.take 4).map descriptor) := by
  have hctx : getElementContext (some el) all =
      { summary :=
          if joinSep ", " (((List.insertionSort ctxLE (rawNeighbors el all)).take 4).map descriptor) ≠ "" then
            mainTextOf el ++ " (" ++ rawTypeOf el ++ ") — connected/near: " ++
              joinSep ", " (((List.insertionSort ctxLE (rawNeighbors el all)).take 4).map descriptor)
          else
            mainTextOf el ++ " (" ++ rawTypeOf el ++ ")",
        neighbors := List.insertionSort ctxLE (rawNeighbors el all) } := rfl
  cases hN : List.insertionSort ctxLE (rawNeighbors el all) with
  | nil =>
    rw [hctx]
    simp [hN, joinSep]
  | cons h t =>
    have hmem : h ∈ (getElementContext (some el) all).neighbors := by
      rw [context_neighbors_eq, hN]
      exact List.mem_cons_self h t
    have hdesc : descriptor h ≠ "" :=
      descriptor_ne_empty h (neighbor_type_ne_empty hmem)
    have hjoin : joinSep ", " (((h :: t).take 4).map descriptor) ≠ "" := by
      have hred : ((h :: t).take 4).map descriptor =
          descriptor h :: (t.take 3).map descriptor := rfl
      rw [hred]
      exact joinSep_cons_ne_empty _ _ hdesc
    rw [hctx]
    simp only [hN]
    rw [if_pos hjoin, if_neg (by simp)]


/-! ### Claim C6 -/

/-- A node with blank text and an empty-string `name` field. -/
def blankNameEl : Element := { mkNode "b" 0 0 with name := some "" }

/-- A node with blank text and a non-empty `name` field. -/
def namedEl : Element := { mkNode "f" 0 0 with name := some "Widget" }

/-- C6: `getElementDetails` formatting: quoted trimmed text, a parenthesized
type label unless the label is "Text label", the bare type label for blank
text, a capitalized fallback for unknown type tags; a rectangle labeled
"Start" resolves to `"Start" (Box)` and whitespace-only text to the bare
label. -/
lemma getElementDetails_some (e : Element) :
    getElementDetails (some e) =
      match trimmedText e with
      | some t =>
        if typeLabelOf e ≠ "Text label" then
          some ("\"" ++ t ++ "\" (" ++ typeLabelOf e ++ ")")
        else
          some ("\"" ++ t ++ "\"")
      | none => some (typeLabelOf e) := rfl

theorem c6_details_format :
    (∀ (e : Element) (t : String), trimmedText e = some t →
      typeLabelOf e ≠ "Text label" →
      getElementDetails (some e) = some ("\"" ++ t ++ "\" (" ++ typeLabelOf e ++ ")")) ∧
    (∀ (e : Element) (t : String), trimmedText e = some t →
      typeLabelOf e = "Text label" →
      getElementDetails (some e) = some ("\"" ++ t ++ "\"")) ∧
    (∀ e : Element, trimmedText e = none →
      getElementDetails (some e) = some (typeLabelOf e)) ∧
    (∀ e : Element, typeDescriptions (rawTypeOf e) = none →
      typeLabelOf e = capitalize (rawTypeOf e)) ∧
    getElementDetails (some { mkNode "s" 0 0 with text := some "Start" }) =
      some "\"Start\" (Box)" ∧
    getElementDetails (some { mkNode "s" 0 0 with type := "ellipse", text := some "  " }) =
      some "Oval" := by
  refine ⟨?_, ?_, ?_, ?_, ?_, ?_⟩
  · intro e t h1 h2
    rw [getElementDetails_some]
    simp only [h1, if_pos h2]
  · intro e t h1 h2
    rw [getElementDetails_some]
    simp only [h1]
    rw [if_neg (by rw [h2]; simp)]
  · intro e h1
    rw [getElementDetails_some]
    simp only [h1]
  · intro e h1
    unfold typeLabelOf
    rw [h1]
  · rfl
  · rfl

/-- C6 witness: the general clauses applied to the "Start" rectangle. -/
theorem c6_witness :
    trimmedText { mkNode "s" 0 0 with text := some "Start" } = some "Start" ∧
    typeLabelOf { mkNode "s" 0 0 with text := some "Start" } ≠ "Text label" ∧
    getElementDetails (some { mkNode "s" 0 0 with text := some "Start" }) =
      some ("\"" ++ "Start" ++ "\" (" ++
        typeLabelOf { mkNode "s" 0 0 with text := some "Start" } ++ ")") :=
  ⟨rfl, by decide, c6_details_format.1 _ "Start" rfl (by decide)⟩


/-! ### Claim C7 -/

lemma trimmedText_ne_empty {e : Element} {t : String}
    (h : trimmedText e = some t) : t ≠ "" := by
  cases hx : e.text with
  | none => simp [trimmedText, hx] at h
  | some u =>
    simp only [trimmedText, hx] at h
    by_cases hu : jsTrim u = ""
    · rw [if_pos hu] at h
      exact absurd h (by simp)
    · rw [if_neg hu] at h
      have h2 := Option.some_inj.mp h
      subst h2
      exact hu

/-- With blank text, the main text falls through to the type tag whenever
the `name` field is absent or the empty string (`'' || typeLabel`). -/
lemma mainTextOf_type_tag {el : Element} (h1 : trimmedText el = none)
    (h2 : el.name.getD "" = "") : mainTextOf el = rawTypeOf el := by
  unfold mainTextOf strOr
  rw [h1, Option.getD_none, h2]
  simp

/-- Every summary of a present focal node begins with
`<mainText> (<typeLabel>)`. -/
lemma summary_head (el : Element) (all : List Element) :
    ∃ rest, (getElementContext (some el) all).summary =
      mainTextOf el ++ " (" ++ rawTypeOf el ++ ")" ++ rest := by
  rcases hN : (getElementContext (some el) all).neighbors with _ | ⟨h, t⟩
  · refine ⟨"", ?_⟩
    rw [summary_spec, if_pos hN, String.append_empty]
  · refine ⟨" — connected/near: " ++
      joinSep ", " (((getElementContext (some el) all).neighbors.take 4).map
        descriptor), ?_⟩
    have hlit : (") — connected/near: " : String) =
        ")" ++ " — connected/near: " := rfl
    rw [summary_spec, if_neg (by rw [hN]; simp)]
    simp only [String.append_assoc]
    rw [hlit, String.append_assoc ")" " — connected/near: "]

/-- C7 counterexample: with blank text but a non-empty `name` field, the
summary's main text is the name, not the type tag as claimed. -/
theorem c7_counterexample :
    (getElementContext (some namedEl) []).summary = "Widget (rectangle)" ∧
    (getElementContext (some namedEl) []).summary ≠ "rectangle (rectangle)" := by
  constructor
  · rfl
  · decide

/-- C7 (amended): the summary is
`"<mainText> (<typeLabel>) — connected/near: <first 4 descriptors>"`, with
the clause omitted exactly when no neighbor lies within the radius; the main
text is the trimmed text if present, else the `name` field when it is a
non-empty string, else — the `name` field being absent *or* the empty
string — the type tag. -/
theorem c7_summary_format (el : Element) (all : List Element) :
    ((getElementContext (some el) all).neighbors = [] →
      (getElementContext (some el) all).summary =
        mainTextOf el ++ " (" ++ rawTypeOf el ++ ")") ∧
    ((getElementContext (some el) all).neighbors ≠ [] →
      (getElementContext (some el) all).summary =
        mainTextOf el ++ " (" ++ rawTypeOf el ++ ") — connected/near: " ++
          joinSep ", " (((getElementContext (some el) all).neighbors.take 4).map
            descriptor)) ∧
    (∀ t, trimmedText el = some t → mainTextOf el = t) ∧
    (∀ s, trimmedText el = none → el.name = some s → s ≠ "" → mainTextOf el = s) ∧
    (trimmedText el = none → el.name.getD "" = "" →
      mainTextOf el = rawTypeOf el) := by
  refine ⟨?_, ?_, ?_, ?_, ?_⟩
  · intro h
    rw [summary_spec, if_pos h]
  · intro h
    rw [summary_spec, if_neg h]
  · intro t ht
    unfold mainTextOf
    rw [ht, Option.getD_some]
    unfold strOr
    rw [if_neg (trimmedText_ne_empty ht)]
  · intro s ht hn hs
    unfold mainTextOf strOr
    rw [ht, hn]
    simp [hs]
  · intro ht hn
    exact mainTextOf_type_tag ht hn

/-- C7 witness: the amended characterization applied to the named-element
scene with no neighbors. -/
theorem c7_witness :
    (getElementContext (some namedEl) []).neighbors = [] ∧
    (getElementContext (some namedEl) []).summary =
      mainTextOf namedEl ++ " (" ++ rawTypeOf namedEl ++ ")" :=
  ⟨rfl, (c7_summary_format namedEl []).1 rfl⟩


/-! ### Claim C8 -/

/-- C8: both prompt builders depend only on the first 4 (resp. 6) neighbor
descriptors; with no neighbors the "Nearby elements" clause is omitted while
the topic is still embedded; a short-explanation prompt with 5 neighbors is
the prompt with the first 4. -/
theorem c8_prompt_truncation :
    (∀ (el : Option Element) (topic : String) (ns : List ElementContext),
      buildExplanationPrompt el topic ns =
        buildExplanationPrompt el topic (ns.take 4)) ∧
    (∀ (el : Option Element) (topic : String) (ns : List ElementContext),
      buildDeepDivePrompt el topic ns = buildDeepDivePrompt el topic (ns.take 6)) ∧
    (∀ (el : Option Element) (topic : String) (n1 n2 n3 n4 n5 : ElementContext),
      buildExplanationPrompt el topic [n1, n2, n3, n4, n5] =
        buildExplanationPrompt el topic [n1, n2, n3, n4]) ∧
    (∀ (el : Option Element) (topic : String),
      buildExplanationPrompt el topic [] =
        "Diagram topic: \"" ++ topic ++ "\". " ++
        "\nExplain \"" ++ promptElementText el ++ "\" in 2-3 sentences. DO NOT start with \"This element\", \"The box\", \"The rectangle\", or any shape label. Start directly with its purpose and function in the diagram. Then describe how it connects to nearby elements and why it matters.") ∧
    (∀ (el : Option Element) (topic : String),
      buildDeepDivePrompt el topic [] =
        "Diagram topic: \"" ++ topic ++ "\". " ++
        "\nProvide a detailed explanation of \"" ++ promptElementText el ++ "\". DO NOT start with \"This element\", \"The box\", \"The rectangle\", or any shape label. Start directly with its function.\nInclude:\n1) A clear description of its function and role in the diagram\n2) Two short concrete examples or scenarios illustrating its role\n3) One simple mnemonic to remember it\nUse short paragraphs and bullet points. Focus on this element's role in the diagram, not generic definitions.") ∧
    (∀ (el : Option Element) (topic : String),
      ∃ pre suf, buildExplanationPrompt el topic [] = pre ++ topic ++ suf) := by
  refine ⟨?_, ?_, ?_, ?_, ?_, ?_⟩
  · intro el topic ns
    cases ns with
    | nil => rfl
    | cons a l =>
      unfold buildExplanationPrompt
      rw [if_pos (by simp), if_pos (by simp), List.take_take]
      norm_num
  · intro el topic ns
    cases ns with
    | nil => rfl
    | cons a l =>
      unfold buildDeepDivePrompt
      rw [if_pos (by simp), if_pos (by simp), List.take_take]
      norm_num
  · intro el topic n1 n2 n3 n4 n5
    unfold buildExplanationPrompt
    rw [if_pos (by simp), if_pos (by simp)]
    rfl
  · intro el topic
    unfold buildExplanationPrompt
    rw [if_neg (by simp)]
    simp only []
    rw [String.append_empty]
  · intro el topic
    unfold buildDeepDivePrompt
    rw [if_neg (by simp)]
    simp only []
    rw [String.append_empty]
  · intro el topic
    refine ⟨"Diagram topic: \"", "\". " ++
      "\nExplain \"" ++ promptElementText el ++ "\" in 2-3 sentences. DO NOT start with \"This element\", \"The box\", \"The rectangle\", or any shape label. Start directly with its purpose and function in the diagram. Then describe how it connects to nearby elements and why it matters.", ?_⟩
    unfold buildExplanationPrompt
    rw [if_neg (by simp)]
    simp only []
    rw [String.append_empty]
    simp [String.append_assoc]


/-! ### Claims C9 and C10 -/

lemma promptElementText_placeholder {el : Element} (h1 : trimmedText el = none)
    (h2 : el.name = none) : promptElementText (some el) = "this element" := by
  unfold promptElementText
  simp only [h1, h2]

lemma promptElementText_name {el : Element} {s : String}
    (h1 : trimmedText el = none) (h2 : el.name = some s) :
    promptElementText (some el) = s := by
  unfold promptElementText
  simp only [h1, h2]

/-- C9 counterexample: a node with blank text and an empty-string `name`
does not fall back to the "this element" placeholder — the prompt embeds the
empty string instead. -/
theorem c9_counterexample :
    promptElementText (some blankNameEl) = "" ∧
    promptElementText none = "this element" ∧
    buildExplanationPrompt (some blankNameEl) "t" [] ≠
      buildExplanationPrompt none "t" [] := by
  refine ⟨rfl, rfl, ?_⟩
  decide

/-- C9 (amended): no core operation raises — `getElementDetails` is `null`
exactly on an absent node, `getElementContext` of an absent focal node is
`{summary: '', neighbors: []}`, and the prompt builders fall back to the
"this element" placeholder when the focal text is absent or blank and no
`name` field is present. -/
theorem c9_total_defaults :
    (∀ oe : Option Element, getElementDetails oe = none ↔ oe = none) ∧
    (∀ all : List Element,
      getElementContext none all = { summary := "", neighbors := [] }) ∧
    (∀ (el : Element) (topic : String) (ns : List ElementContext),
      trimmedText el = none → el.name = none →
      buildExplanationPrompt (some el) topic ns =
        buildExplanationPrompt none topic ns) ∧
    (∀ (el : Element) (topic : String) (ns : List ElementContext),
      trimmedText el = none → el.name = none →
      buildDeepDivePrompt (some el) topic ns = buildDeepDivePrompt none topic ns) ∧
    promptElementText none = "this element" := by
  refine ⟨?_, fun _ => rfl, ?_, ?_, rfl⟩
  · intro oe
    cases oe with
    | none => simp [getElementDetails]
    | some e =>
      rw [getElementDetails_some]
      cases h : trimmedText e with
      | none => simp
      | some t =>
        simp only []
        split_ifs <;> simp
  · intro el topic ns h1 h2
    unfold buildExplanationPrompt
    rw [promptElementText_placeholder h1 h2]
    rfl
  · intro el topic ns h1 h2
    unfold buildDeepDivePrompt
    rw [promptElementText_placeholder h1 h2]
    rfl

/-- C9 witness: the placeholder clauses applied to a bare node with no text
and no name. -/
theorem c9_witness :
    trimmedText (mkNode "plain" 0 0) = none ∧
    (mkNode "plain" 0 0).name = none ∧
    buildExplanationPrompt (some (mkNode "plain" 0 0)) "T" [] =
      buildExplanationPrompt none "T" [] :=
  ⟨rfl, rfl, c9_total_defaults.2.2.1 (mkNode "plain" 0 0) "T" [] rfl rfl⟩

/-- C10: blank-text fallbacks consult the undocumented `name` field first:
a neighbor's context text is the element's name (or the empty string), the
summary's main text is the name when it is a non-empty string — else (the
name being absent or the empty string) the type tag — and the prompt element
text is the name whenever present, so an element with blank text and an
empty-string name is labeled with the empty string, not with the
placeholder. -/
theorem c10_name_fallback :
    (∀ el o : Element, trimmedText o = none →
      (neighborEntry el o).text = o.name.getD "") ∧
    (∀ (el : Element) (all : List Element) (s : String),
      trimmedText el = none → el.name = some s → s ≠ "" →
      ∃ rest, (getElementContext (some el) all).summary =
        s ++ " (" ++ rawTypeOf el ++ ")" ++ rest) ∧
    (∀ (el : Element) (all : List Element),
      trimmedText el = none → el.name.getD "" = "" →
      ∃ rest, (getElementContext (some el) all).summary =
        rawTypeOf el ++ " (" ++ rawTypeOf el ++ ")" ++ rest) ∧
    (∀ (el : Element) (s : String), trimmedText el = none → el.name = some s →
      promptElementText (some el) = s) ∧
    buildExplanationPrompt (some blankNameEl) "t" [] =
      "Diagram topic: \"t\". " ++
      "\nExplain \"\" in 2-3 sentences. DO NOT start with \"This element\", \"The box\", \"The rectangle\", or any shape label. Start directly with its purpose and function in the diagram. Then describe how it connects to nearby elements and why it matters." ∧
    buildExplanationPrompt (some blankNameEl) "t" [] ≠
      buildExplanationPrompt none "t" [] := by
  refine ⟨?_, ?_, ?_, ?_, ?_, by decide⟩
  · intro el o h
    show (trimmedText o).getD (o.name.getD "") = o.name.getD ""
    rw [h, Option.getD_none]
  · intro el all s h1 h2 hs
    have hmain : mainTextOf el = s := by
      unfold mainTextOf strOr
      rw [h1, h2]
      simp [hs]
    obtain ⟨rest, hr⟩ := summary_head el all
    exact ⟨rest, by rw [hr, hmain]⟩
  · intro el all h1 h2
    obtain ⟨rest, hr⟩ := summary_head el all
    exact ⟨rest, by rw [hr, mainTextOf_type_tag h1 h2]⟩
  · intro el s h1 h2
    exact promptElementText_name h1 h2
  · rfl


/-! ### Traversal: Kahn walk and claim C1 -/

/-! ### Kahn loop lemmas -/

lemma processSuccs_fst {succs : List String} (hN : succs.Nodup)
    (indeg : String → ℤ) (x : String) :
    (processSuccs succs indeg).1 x = indeg x - (if x ∈ succs then 1 else 0) := by
  induction succs generalizing indeg with
  | nil => simp [processSuccs]
  | cons nb rest ih =>
    rw [List.nodup_cons] at hN
    show (processSuccs rest _).1 x = _
    rw [ih hN.2]
    by_cases hx : x = nb
    · subst hx
      simp [hN.1, List.mem_cons]
    · simp only [if_neg hx]
      by_cases hm : x ∈ rest <;> simp [hm, hx, List.mem_cons]

lemma processSuccs_snd {succs : List String} (hN : succs.Nodup)
    (indeg : String → ℤ) :
    (processSuccs succs indeg).2 = succs.filter (fun nb => decide (indeg nb = 1)) := by
  induction succs generalizing indeg with
  | nil => rfl
  | cons nb rest ih =>
    rw [List.nodup_cons] at hN
    show (if indeg nb - 1 = 0 then [nb] else []) ++ (processSuccs rest _).2 = _
    rw [ih hN.2, List.filter_cons]
    have hcong : rest.filter
        (fun x => decide ((if x = nb then indeg nb - 1 else indeg x) = 1)) =
        rest.filter (fun x => decide (indeg x = 1)) := by
      apply List.filter_congr
      intro x hx
      have : x ≠ nb := fun h => hN.1 (h ▸ hx)
      simp [this]
    rw [hcong]
    by_cases h1 : indeg nb = 1
    · rw [if_pos (by omega), if_pos (by simp [h1])]
      rfl
    · rw [if_neg (by omega), if_neg (by simp [h1])]
      rfl

lemma kahnLoop_nil (adj : String → List String) (fuel : Nat)
    (indeg : String → ℤ) (order : List String) :
    kahnLoop adj fuel indeg [] order = order := by
  cases fuel <;> rfl

/-- Main Kahn-walk invariant: with deduplicated adjacency lists staying
inside `ids`, and in-degrees nonpositive exactly on the enqueued-or-emitted
nodes, the walk emits pairwise-distinct ids from `ids`. -/
lemma kahnLoop_nodup (adj : String → List String) (ids : List String)
    (hAdjN : ∀ y, (adj y).Nodup) (hAdjS : ∀ y, ∀ x ∈ adj y, x ∈ ids) :
    ∀ (fuel : Nat) (indeg : String → ℤ) (queue order : List String),
    (order ++ queue).Nodup →
    (∀ x ∈ order ++ queue, x ∈ ids) →
    (∀ x ∈ ids, (indeg x ≤ 0 ↔ x ∈ order ++ queue)) →
    (kahnLoop adj fuel indeg queue order).Nodup ∧
      (∀ x ∈ kahnLoop adj fuel indeg queue order, x ∈ ids) := by
  intro fuel
  induction fuel with
  | zero =>
    intro indeg queue order hA hB _
    rw [kahnLoop]
    exact ⟨(List.nodup_append.mp hA).1, fun x hx => hB x (List.mem_append_left _ hx)⟩
  | succ n ih =>
    intro indeg queue order hA hB hC
    cases queue with
    | nil =>
      rw [kahnLoop_nil]
      simp only [List.append_nil] at hA hB
      exact ⟨hA, hB⟩
    | cons id queue =>
      rw [kahnLoop]
      set indeg2 := (processSuccs (adj id) indeg).1 with hind2
      set enq := (processSuccs (adj id) indeg).2 with henq
      have henq_eq : enq = (adj id).filter (fun nb => decide (indeg nb = 1)) :=
        processSuccs_snd (hAdjN id) indeg
      have henqN : enq.Nodup := henq_eq ▸ (hAdjN id).filter _
      have henqS : ∀ x ∈ enq, x ∈ ids := by
        intro x hx
        rw [henq_eq] at hx
        exact hAdjS id x (List.mem_of_mem_filter hx)
      have henq_pos : ∀ x ∈ enq, indeg x = 1 := by
        intro x hx
        rw [henq_eq, List.mem_filter, decide_eq_true_eq] at hx
        exact hx.2
      have henq_fresh : ∀ x ∈ enq, x ∉ order ++ id :: queue := by
        intro x hx hmem
        have h1 := (hC x (henqS x hx)).mpr hmem
        have h2 := henq_pos x hx
        omega
      have heq : ((order ++ [id]) ++ (queue ++ enq)) =
          ((order ++ id :: queue) ++ enq) := by
        simp
      have hA2 : ((order ++ [id]) ++ (queue ++ enq)).Nodup := by
        rw [heq, List.nodup_append]
        refine ⟨hA, henqN, ?_⟩
        intro x hx hx2
        exact henq_fresh x hx2 hx
      have hB2 : ∀ x ∈ (order ++ [id]) ++ (queue ++ enq), x ∈ ids := by
        intro x hx
        rcases List.mem_append.mp hx with hx | hx
        · rcases List.mem_append.mp hx with hx | hx
          · exact hB x (List.mem_append_left _ hx)
          · rw [List.mem_singleton] at hx
            subst hx
            exact hB x (by simp)
        · rcases List.mem_append.mp hx with hx | hx
          · exact hB x (by simp [hx])
          · exact henqS x hx
      have hC2 : ∀ x ∈ ids, (indeg2 x ≤ 0 ↔ x ∈ (order ++ [id]) ++ (queue ++ enq)) := by
        intro x hxids
        rw [hind2, processSuccs_fst (hAdjN id)]
        have hmem_iff : x ∈ (order ++ [id]) ++ (queue ++ enq) ↔
            x ∈ order ++ id :: queue ∨ x ∈ enq := by
          simp [List.mem_append, List.mem_cons]
          tauto
        rw [hmem_iff]
        by_cases hadj : x ∈ adj id
        · rw [if_pos hadj]
          constructor
          · intro h
            by_cases h1 : indeg x ≤ 0
            · exact Or.inl ((hC x hxids).mp h1)
            · right
              rw [henq_eq, List.mem_filter, decide_eq_true_eq]
              exact ⟨hadj, by omega⟩
          · rintro (h | h)
            · have := (hC x hxids).mpr h
              omega
            · have := henq_pos x h
              omega
        · rw [if_neg hadj]
          have henq_sub : x ∈ enq → x ∈ adj id := by
            intro h
            rw [henq_eq] at h
            exact List.mem_of_mem_filter h
          constructor
          · intro h
            exact Or.inl ((hC x hxids).mp (by omega))
          · rintro (h | h)
            · have := (hC x hxids).mpr h
              omega
            · exact absurd (henq_sub h) hadj
      exact ih indeg2 (queue ++ enq) (order ++ [id]) hA2 hB2 hC2


/-! ### Dedup-fold and edge-structure lemmas -/

lemma mem_dedupAppend [DecidableEq α] (l : List α) :
    ∀ (acc : List α) (x : α), x ∈ dedupAppend acc l ↔ x ∈ acc ∨ x ∈ l := by
  induction l with
  | nil => simp [dedupAppend]
  | cons a t ih =>
    intro acc x
    show x ∈ dedupAppend (if a ∈ acc then acc else acc ++ [a]) t ↔ _
    rw [ih]
    by_cases ha : a ∈ acc
    · rw [if_pos ha]
      simp only [List.mem_cons]
      constructor
      · rintro (h | h)
        · exact Or.inl h
        · exact Or.inr (Or.inr h)
      · rintro (h | h | h)
        · exact Or.inl h
        · exact Or.inl (h ▸ ha)
        · exact Or.inr h
    · rw [if_neg ha]
      simp only [List.mem_append, List.mem_singleton, List.mem_cons]
      tauto

lemma dedupAppend_nodup [DecidableEq α] (l : List α) :
    ∀ acc : List α, acc.Nodup → (dedupAppend acc l).Nodup := by
  induction l with
  | nil => exact fun acc h => h
  | cons a t ih =>
    intro acc hacc
    show (dedupAppend (if a ∈ acc then acc else acc ++ [a]) t).Nodup
    by_cases ha : a ∈ acc
    · rw [if_pos ha]
      exact ih acc hacc
    · rw [if_neg ha]
      refine ih _ ?_
      rw [List.nodup_append]
      exact ⟨hacc, List.nodup_singleton a, by simpa using ha⟩

lemma dedupAppend_eq_self [DecidableEq α] {l : List α} (h : l.Nodup) :
    dedupAppend [] l = l := by
  suffices haux : ∀ acc : List α, (∀ x ∈ l, x ∉ acc) → dedupAppend acc l = acc ++ l by
    simpa using haux [] (by simp)
  induction l with
  | nil => simp [dedupAppend]
  | cons a t ih =>
    intro acc hd
    rw [List.nodup_cons] at h
    show dedupAppend (if a ∈ acc then acc else acc ++ [a]) t = _
    rw [if_neg (hd a (by simp))]
    rw [ih h.2 (acc ++ [a]) ?_]
    · simp
    · intro x hx
      simp only [List.mem_append, List.mem_singleton]
      rintro (hmem | rfl)
      · exact hd x (by simp [hx]) hmem
      · exact h.1 hx

lemma edgeList_nodup (all : List Element) : (edgeList all).Nodup :=
  dedupAppend_nodup _ [] (List.nodup_nil)

lemma fallbackEdges_nodup (all : List Element) : (fallbackEdges all).Nodup :=
  dedupAppend_nodup _ [] (List.nodup_nil)

lemma effectiveEdges_nodup (all : List Element) : (effectiveEdges all).Nodup := by
  unfold effectiveEdges
  split_ifs
  · exact fallbackEdges_nodup all
  · exact edgeList_nodup all

lemma connectorEdge_mem_ids {ids : List String} {e : Element}
    {p : String × String} (h : connectorEdge ids e = some p) :
    p.1 ∈ ids ∧ p.2 ∈ ids := by
  unfold connectorEdge at h
  by_cases hc : isConnector e = true
  case neg => rw [if_neg hc] at h; exact Option.noConfusion h
  rw [if_pos hc] at h
  cases hs : resolveBinding e.startBinding with
  | none => rw [hs] at h; exact Option.noConfusion h
  | some s =>
    cases ht : resolveBinding e.endBinding with
    | none => rw [hs, ht] at h; exact Option.noConfusion h
    | some t =>
      rw [hs, ht] at h
      dsimp only at h
      split_ifs at h with hmem
      cases h
      exact hmem

lemma edgeList_mem_ids {all : List Element} {p : String × String}
    (h : p ∈ edgeList all) : p.1 ∈ graphIds all ∧ p.2 ∈ graphIds all := by
  unfold edgeList at h
  rw [mem_dedupAppend] at h
  rcases h with h | h
  · exact absurd h (List.not_mem_nil p)
  · rw [List.mem_filterMap] at h
    obtain ⟨e, -, he⟩ := h
    exact connectorEdge_mem_ids he

lemma fallbackEdges_mem_ids {all : List Element} {p : String × String}
    (h : p ∈ fallbackEdges all) : p.1 ∈ graphIds all ∧ p.2 ∈ graphIds all := by
  unfold fallbackEdges at h
  rw [mem_dedupAppend] at h
  rcases h with h | h
  · exact absurd h (List.not_mem_nil p)
  · have hsub : ∀ q ∈ chainPairs ((List.insertionSort posLE (graphNodes all)).map (·.id)),
        q.1 ∈ (List.insertionSort posLE (graphNodes all)).map (·.id) ∧
        q.2 ∈ (List.insertionSort posLE (graphNodes all)).map (·.id) := by
      generalize (List.insertionSort posLE (graphNodes all)).map (·.id) = L
      intro q hq
      induction L with
      | nil => exact absurd hq (by simp [chainPairs])
      | cons a t iht =>
        cases t with
        | nil => exact absurd hq (by simp [chainPairs])
        | cons b r =>
          rw [chainPairs] at hq
          rcases List.mem_cons.mp hq with rfl | hq2
          · exact ⟨by simp, by simp⟩
          · have := iht hq2
            exact ⟨List.mem_cons_of_mem a this.1, List.mem_cons_of_mem a this.2⟩
    have hmem := hsub p h
    have hperm : ((List.insertionSort posLE (graphNodes all)).map (·.id)).Perm
        (graphIds all) :=
      (List.perm_insertionSort posLE (graphNodes all)).map (·.id)
    exact ⟨hperm.mem_iff.mp hmem.1, hperm.mem_iff.mp hmem.2⟩

lemma effectiveEdges_mem_ids {all : List Element} {p : String × String}
    (h : p ∈ effectiveEdges all) : p.1 ∈ graphIds all ∧ p.2 ∈ graphIds all := by
  unfold effectiveEdges at h
  split_ifs at h
  · exact fallbackEdges_mem_ids h
  · exact edgeList_mem_ids h

lemma succsOf_nodup {edges : List (String × String)} (h : edges.Nodup)
    (x : String) : (succsOf edges x).Nodup := by
  unfold succsOf
  refine (List.Nodup.filter _ h).map_on ?_
  intro p hp q hq hpq
  rw [List.mem_filter, decide_eq_true_eq] at hp hq
  exact Prod.ext_iff.mpr ⟨by rw [hp.2, hq.2], hpq⟩

lemma succsOf_mem {edges : List (String × String)} {x y : String}
    (h : y ∈ succsOf edges x) : (x, y) ∈ edges := by
  unfold succsOf at h
  rw [List.mem_map] at h
  obtain ⟨p, hp, hpy⟩ := h
  rw [List.mem_filter, decide_eq_true_eq] at hp
  have hpxy : p = (x, y) := Prod.ext_iff.mpr ⟨hp.2, hpy⟩
  exact hpxy ▸ hp.1

lemma indegOf_nonneg (edges : List (String × String)) (x : String) :
    0 ≤ indegOf edges x := by
  unfold indegOf
  positivity


/-! ### Leftover-append lemmas and claim C1 -/

lemma appendMissing_eq_filter {ids : List String} (h : ids.Nodup) :
    ∀ order : List String,
      appendMissing order ids = order ++ ids.filter (fun id => decide (id ∉ order)) := by
  induction ids with
  | nil => simp [appendMissing]
  | cons a t ih =>
    intro order
    rw [List.nodup_cons] at h
    show appendMissing (if a ∈ order then order else order ++ [a]) t = _
    by_cases ha : a ∈ order
    · rw [if_pos ha, ih h.2, List.filter_cons, if_neg (by simp [ha])]
    · rw [if_neg ha, ih h.2, List.filter_cons, if_pos (by simp [ha])]
      have hcong : t.filter (fun id => decide (id ∉ order ++ [a])) =
          t.filter (fun id => decide (id ∉ order)) := by
        apply List.filter_congr
        intro x hx
        have hxa : x ≠ a := fun hh => h.1 (hh ▸ hx)
        simp [List.mem_append, hxa]
      rw [hcong]
      simp

lemma perm_append_filter {ids l : List String} (hids : ids.Nodup)
    (hl : l.Nodup) (hsub : ∀ x ∈ l, x ∈ ids) :
    (l ++ ids.filter (fun x => decide (x ∉ l))).Perm ids := by
  rw [List.perm_iff_count]
  intro a
  rw [List.count_append]
  by_cases hal : a ∈ l
  · rw [List.count_eq_one_of_mem hl hal,
      List.count_eq_zero.mpr (by simp [hal]),
      List.count_eq_one_of_mem hids (hsub a hal)]
  · rw [List.count_eq_zero.mpr hal]
    by_cases hai : a ∈ ids
    · rw [List.count_eq_one_of_mem (hids.filter _) (by simp [hai, hal]),
        List.count_eq_one_of_mem hids hai]
    · rw [List.count_eq_zero.mpr (by simp [hai]),
        List.count_eq_zero.mpr hai]

lemma kahnVisited_spec (all : List Element)
    (h : (graphIds all).Nodup) :
    (kahnVisited (graphIds all) (effectiveEdges all)).Nodup ∧
      ∀ x ∈ kahnVisited (graphIds all) (effectiveEdges all), x ∈ graphIds all := by
  set ids := graphIds all
  set edges := effectiveEdges all with hedges
  apply kahnLoop_nodup (succsOf edges) ids
  · exact fun y => succsOf_nodup (effectiveEdges_nodup all) y
  · exact fun y x hx => (effectiveEdges_mem_ids (succsOf_mem hx)).2
  · show ([] ++ seedQueue ids edges).Nodup
    rw [List.nil_append]
    exact (dedupAppend_nodup ids [] List.nodup_nil).filter _
  · intro x hx
    rw [List.nil_append] at hx
    unfold seedQueue at hx
    have := List.mem_of_mem_filter hx
    rw [mem_dedupAppend] at this
    rcases this with hh | hh
    · exact absurd hh (List.not_mem_nil x)
    · exact hh
  · intro x hxids
    rw [List.nil_append]
    unfold seedQueue
    rw [List.mem_filter, mem_dedupAppend, decide_eq_true_eq]
    have hpos := indegOf_nonneg edges x
    constructor
    · intro hle
      exact ⟨Or.inr hxids, by omega⟩
    · rintro ⟨-, hh⟩
      omega

/-- C1: on inputs with pairwise-distinct graph-node ids, `getTraversalOrder`
always returns a sequence that is a permutation of the graph-node ids: its
length is the number of graph nodes, every graph-node id occurs exactly
once, no other id (in particular no connector id) occurs, and the ids not
reached by the Kahn walk are appended after it in original input order. -/
theorem c1_traversal_total (all : List Element) (h : (graphIds all).Nodup) :
    (getTraversalOrder all).Perm (graphIds all) ∧
    (getTraversalOrder all).length = (graphIds all).length ∧
    (∀ id ∈ graphIds all, (getTraversalOrder all).count id = 1) ∧
    (∀ id, id ∉ graphIds all → (getTraversalOrder all).count id = 0) ∧
    getTraversalOrder all =
      kahnVisited (graphIds all) (effectiveEdges all) ++
        (graphIds all).filter
          (fun id => decide (id ∉ kahnVisited (graphIds all) (effectiveEdges all))) := by
  obtain ⟨hVN, hVS⟩ := kahnVisited_spec all h
  have horder : getTraversalOrder all =
      kahnVisited (graphIds all) (effectiveEdges all) ++
        (graphIds all).filter
          (fun id => decide (id ∉ kahnVisited (graphIds all) (effectiveEdges all))) := by
    cases hall : all with
    | nil => rfl
    | cons e rest =>
      rw [← hall]
      unfold getTraversalOrder
      rw [if_neg (by rw [hall]; exact List.cons_ne_nil e rest)]
      unfold traversalFromGraph
      exact appendMissing_eq_filter h _
  have hperm : (getTraversalOrder all).Perm (graphIds all) := by
    rw [horder]
    exact perm_append_filter h hVN hVS
  refine ⟨hperm, hperm.length_eq, ?_, ?_, horder⟩
  · intro id hid
    rw [hperm.count_eq]
    exact List.count_eq_one_of_mem h hid
  · intro id hid
    rw [hperm.count_eq]
    exact List.count_eq_zero.mpr hid

/-- C1 witness: the two-node cycle `A→B→A` still yields both ids exactly
once. -/
theorem c1_witness :
    (graphIds twoCycle).Nodup ∧
    ((getTraversalOrder twoCycle).Perm (graphIds twoCycle) ∧
      (getTraversalOrder twoCycle).length = (graphIds twoCycle).length ∧
      (∀ id ∈ graphIds twoCycle, (getTraversalOrder twoCycle).count id = 1) ∧
      (∀ id, id ∉ graphIds twoCycle → (getTraversalOrder twoCycle).count id = 0) ∧
      getTraversalOrder twoCycle =
        kahnVisited (graphIds twoCycle) (effectiveEdges twoCycle) ++
          (graphIds twoCycle).filter
            (fun id => decide (id ∉ kahnVisited (graphIds twoCycle)
              (effectiveEdges twoCycle)))) :=
  ⟨by decide, c1_traversal_total twoCycle (by decide)⟩


/-! ### Claim C4 -/

lemma length_eq_four {l : List String} (h : l.length = 4) :
    ∃ a b c d, l = [a, b, c, d] := by
  rcases l with _ | ⟨a, _ | ⟨b, _ | ⟨c, _ | ⟨d, _ | ⟨e, t⟩⟩⟩⟩⟩ <;>
    simp only [List.length] at h <;> try omega
  exact ⟨a, b, c, d, rfl⟩

/-- The Kahn walk on the concrete graph `A→B→C`, `D` isolated, for every
arrangement of the four nodes and both edge-list orders. -/
lemma traversal_chain_ABCD (l : List String)
    (hperm : l.Perm ["A", "B", "C", "D"])
    (edges : List (String × String))
    (hedges : edges = [("A", "B"), ("B", "C")] ∨
      edges = [("B", "C"), ("A", "B")]) :
    (traversalFromGraph l edges).count "A" = 1 ∧
    (traversalFromGraph l edges).count "B" = 1 ∧
    (traversalFromGraph l edges).count "C" = 1 ∧
    (traversalFromGraph l edges).count "D" = 1 ∧
    (traversalFromGraph l edges).length = 4 ∧
    ((traversalFromGraph l edges).take 2 = ["A", "D"] ∨
      (traversalFromGraph l edges).take 2 = ["D", "A"]) ∧
    (traversalFromGraph l edges).indexOf "A" <
      (traversalFromGraph l edges).indexOf "B" ∧
    (traversalFromGraph l edges).indexOf "B" <
      (traversalFromGraph l edges).indexOf "C" := by
  have h4 : l.length = 4 := by
    have := hperm.length_eq
    simpa using this
  obtain ⟨a, b, c, d, rfl⟩ := length_eq_four h4
  have ha : a ∈ (["A", "B", "C", "D"] : List String) := hperm.subset (by simp)
  have hb : b ∈ (["A", "B", "C", "D"] : List String) := hperm.subset (by simp)
  have hc : c ∈ (["A", "B", "C", "D"] : List String) := hperm.subset (by simp)
  have hd : d ∈ (["A", "B", "C", "D"] : List String) := hperm.subset (by simp)
  simp only [List.mem_cons, List.mem_singleton, List.not_mem_nil, or_false] at ha hb hc hd
  rcases ha with rfl | rfl | rfl | rfl <;>
    rcases hb with rfl | rfl | rfl | rfl <;>
    rcases hc with rfl | rfl | rfl | rfl <;>
    rcases hd with rfl | rfl | rfl | rfl <;>
    rcases hedges with rfl | rfl <;>
    revert hperm <;>
    decide


/-- C4: whenever the four graph nodes are (in any input order) `A, B, C, D`
with binding-derived edges exactly `A→B` and `B→C` and `D` unbound, the
traversal contains each id exactly once, starts with `A` and `D` (the two
zero-in-degree nodes) in some order, and places `B` after `A` and `C` after
`B`. -/
theorem c4_chain_with_isolated (all : List Element)
    (hperm : (graphIds all).Perm ["A", "B", "C", "D"])
    (hedges : edgeList all = [("A", "B"), ("B", "C")] ∨
      edgeList all = [("B", "C"), ("A", "B")]) :
    (getTraversalOrder all).count "A" = 1 ∧
    (getTraversalOrder all).count "B" = 1 ∧
    (getTraversalOrder all).count "C" = 1 ∧
    (getTraversalOrder all).count "D" = 1 ∧
    (getTraversalOrder all).length = 4 ∧
    ((getTraversalOrder all).take 2 = ["A", "D"] ∨
      (getTraversalOrder all).take 2 = ["D", "A"]) ∧
    (getTraversalOrder all).indexOf "A" < (getTraversalOrder all).indexOf "B" ∧
    (getTraversalOrder all).indexOf "B" < (getTraversalOrder all).indexOf "C" := by
  have hne : all ≠ [] := by
    intro hh
    have := hperm.length_eq
    rw [hh] at this
    simp [graphIds, graphNodes] at this
  have hEne : edgeList all ≠ [] := by
    rcases hedges with hh | hh <;> simp [hh]
  have hfact : getTraversalOrder all =
      traversalFromGraph (graphIds all) (edgeList all) := by
    unfold getTraversalOrder effectiveEdges
    rw [if_neg hne, if_neg hEne]
  rw [hfact]
  exact traversal_chain_ABCD _ hperm _ hedges

/-- C4 witness: the concrete `A→B→C` + isolated `D` scene. -/
theorem c4_witness :
    ((graphIds chainScene).Perm ["A", "B", "C", "D"] ∧
      edgeList chainScene = [("A", "B"), ("B", "C")]) ∧
    ((getTraversalOrder chainScene).count "A" = 1 ∧
    (getTraversalOrder chainScene).count "B" = 1 ∧
    (getTraversalOrder chainScene).count "C" = 1 ∧
    (getTraversalOrder chainScene).count "D" = 1 ∧
    (getTraversalOrder chainScene).length = 4 ∧
    ((getTraversalOrder chainScene).take 2 = ["A", "D"] ∨
      (getTraversalOrder chainScene).take 2 = ["D", "A"]) ∧
    (getTraversalOrder chainScene).indexOf "A" <
      (getTraversalOrder chainScene).indexOf "B" ∧
    (getTraversalOrder chainScene).indexOf "B" <
      (getTraversalOrder chainScene).indexOf "C") :=
  ⟨⟨by decide, by decide⟩,
    c4_chain_with_isolated chainScene (by decide) (Or.inl (by decide))⟩


/-! ### Claim C5: positional fallback -/

/-- Predicate: `adj` realizes exactly the chain over the listed ids. -/
def chainAdj (adj : String → List String) : List String → Prop
  | [] => True
  | [a] => adj a = []
  | a :: b :: rest => adj a = [b] ∧ chainAdj adj (b :: rest)

lemma chainAdj_congr {adj1 adj2 : String → List String} :
    ∀ s : List String, (∀ x ∈ s, adj1 x = adj2 x) → chainAdj adj2 s →
      chainAdj adj1 s
  | [], _, _ => trivial
  | [a], h, h2 => by
    show adj1 a = []
    rw [h a (by simp)]
    exact h2
  | a :: b :: rest, h, h2 => by
    obtain ⟨h2a, h2r⟩ := h2
    refine ⟨?_, chainAdj_congr (b :: rest) (fun x hx => h x (List.mem_cons_of_mem a hx)) h2r⟩
    rw [h a (by simp)]
    exact h2a

lemma chainPairs_fst_mem : ∀ (s : List String), ∀ p ∈ chainPairs s, p.1 ∈ s
  | [], p, hp => absurd hp (by simp [chainPairs])
  | [a], p, hp => absurd hp (by simp [chainPairs])
  | a :: b :: rest, p, hp => by
    rw [chainPairs] at hp
    rcases List.mem_cons.mp hp with rfl | hp2
    · simp
    · exact List.mem_cons_of_mem a (chainPairs_fst_mem (b :: rest) p hp2)

lemma chainPairs_nodup : ∀ {s : List String}, s.Nodup → (chainPairs s).Nodup := by
  intro s
  match s with
  | [] => exact fun _ => List.nodup_nil
  | [a] => exact fun _ => List.nodup_nil
  | a :: b :: rest =>
    intro h
    rw [List.nodup_cons] at h
    rw [chainPairs, List.nodup_cons]
    refine ⟨?_, chainPairs_nodup h.2⟩
    intro hmem
    exact h.1 (chainPairs_fst_mem (b :: rest) _ hmem)

lemma succsOf_nil_edges (x : String) : succsOf [] x = [] := rfl

lemma succsOf_cons_ne {p : String × String} {es : List (String × String)}
    {x : String} (h : x ≠ p.1) : succsOf (p :: es) x = succsOf es x := by
  unfold succsOf
  have hcond : ¬(decide (p.1 = x) = true) := by
    simp only [decide_eq_true_eq]
    exact fun hh => h hh.symm
  rw [List.filter_cons, if_neg hcond]

lemma succsOf_cons_eq {b : String} {es : List (String × String)} {a : String}
    (h : ∀ q ∈ es, q.1 ≠ a) : succsOf ((a, b) :: es) a = [b] := by
  unfold succsOf
  rw [List.filter_cons, if_pos (by simp)]
  rw [List.map_cons]
  have : es.filter (fun p => decide (p.1 = a)) = [] := by
    rw [List.filter_eq_nil_iff]
    intro q hq
    simp [h q hq]
  rw [this]
  rfl

lemma succsOf_chainPairs : ∀ {s : List String}, s.Nodup →
    chainAdj (succsOf (chainPairs s)) s := by
  intro s
  match s with
  | [] => exact fun _ => trivial
  | [a] => exact fun _ => rfl
  | a :: b :: rest =>
    intro h
    rw [List.nodup_cons] at h
    rw [chainPairs]
    constructor
    · refine succsOf_cons_eq ?_
      intro q hq hq1
      have hmem := chainPairs_fst_mem (b :: rest) q hq
      rw [hq1] at hmem
      exact h.1 hmem
    · refine chainAdj_congr (b :: rest) ?_ (succsOf_chainPairs h.2)
      intro x hx
      refine succsOf_cons_ne (fun hh => ?_)
      rw [show ((a, b) : String × String).1 = a from rfl] at hh
      rw [hh] at hx
      exact h.1 hx

lemma indegOf_cons (p : String × String) (es : List (String × String))
    (x : String) :
    indegOf (p :: es) x = (if p.2 = x then 1 else 0) + indegOf es x := by
  unfold indegOf
  rw [List.filter_cons]
  by_cases h : p.2 = x
  · rw [if_pos (by simp [h]), if_pos h, List.length_cons]
    push_cast
    ring
  · rw [if_neg (by simp [h]), if_neg h, zero_add]

lemma indeg_chainPairs : ∀ {s : List String}, s.Nodup →
    ∀ x, indegOf (chainPairs s) x = if x ∈ s.tail then 1 else 0 := by
  intro s
  match s with
  | [] => intro _ x; simp [chainPairs, indegOf]
  | [a] => intro _ x; simp [chainPairs, indegOf]
  | a :: b :: rest =>
    intro h x
    rw [List.nodup_cons] at h
    rw [chainPairs, indegOf_cons, indeg_chainPairs h.2 x]
    have htail : (a :: b :: rest).tail = b :: rest := rfl
    have htail2 : (b :: rest).tail = rest := rfl
    rw [htail, htail2]
    have h2 := h.2
    rw [List.nodup_cons] at h2
    by_cases hxb : x = b
    · subst hxb
      rw [if_pos rfl, if_neg h2.1, if_pos (by simp)]
      norm_num
    · rw [if_neg (fun hh => hxb hh.symm)]
      show (0 : ℤ) + _ = _
      rw [zero_add]
      by_cases hxr : x ∈ rest
      · rw [if_pos hxr, if_pos (by simp [hxr])]
      · rw [if_neg hxr, if_neg (by simp [hxb, hxr])]

lemma filter_unique {p : String → Bool} {h0 : String} :
    ∀ {ids : List String}, ids.Nodup → h0 ∈ ids →
      (∀ x ∈ ids, p x = true ↔ x = h0) → ids.filter p = [h0] := by
  intro ids
  induction ids with
  | nil => intro _ h _; exact absurd h (List.not_mem_nil h0)
  | cons a t ih =>
    intro hN hmem hp
    rw [List.nodup_cons] at hN
    rw [List.filter_cons]
    rcases List.mem_cons.mp hmem with rfl | hmem2
    · rw [if_pos ((hp h0 (by simp)).mpr rfl)]
      have hfil : t.filter p = [] := by
        rw [List.filter_eq_nil_iff]
        intro x hx hpx
        have hxh := (hp x (List.mem_cons_of_mem _ hx)).mp hpx
        rw [hxh] at hx
        exact hN.1 hx
      rw [hfil]
    · have hne : a ≠ h0 := fun hh => hN.1 (hh ▸ hmem2)
      have hpa : ¬(p a = true) := fun hh => hne ((hp a (by simp)).mp hh)
      rw [if_neg hpa]
      exact ih hN.2 hmem2 (fun x hx => hp x (List.mem_cons_of_mem _ hx))

/-- Running the Kahn loop along a realized chain emits exactly the chain. -/
lemma kahn_on_chain (adj : String → List String) :
    ∀ (rest : List String) (a : String) (indeg : String → ℤ)
      (order : List String) (fuel : Nat),
      chainAdj adj (a :: rest) → (a :: rest).Nodup →
      (∀ x ∈ rest, indeg x = 1) → rest.length + 1 ≤ fuel →
      kahnLoop adj fuel indeg [a] order = order ++ a :: rest := by
  intro rest
  induction rest with
  | nil =>
    intro a indeg order fuel hchain hN hindeg hfuel
    have hadj : adj a = [] := hchain
    cases fuel with
    | zero => omega
    | succ f =>
      rw [kahnLoop]
      have hps : processSuccs (adj a) indeg = (indeg, []) := by
        rw [hadj]
        rfl
      rw [hps]
      show kahnLoop adj f indeg [] (order ++ [a]) = _
      rw [kahnLoop_nil]
  | cons b r ih =>
    intro a indeg order fuel hchain hN hindeg hfuel
    obtain ⟨hadj, hchain2⟩ := hchain
    cases fuel with
    | zero => omega
    | succ f =>
      rw [kahnLoop]
      have hb1 : indeg b = 1 := hindeg b (by simp)
      have hps : processSuccs (adj a) indeg =
          (fun x => if x = b then indeg b - 1 else indeg x, [b]) := by
        rw [hadj]
        show (_, (if indeg b - 1 = 0 then [b] else []) ++ []) = _
        rw [if_pos (by omega), List.append_nil]
        rfl
      rw [hps]
      show kahnLoop adj f (fun x => if x = b then indeg b - 1 else indeg x)
        [b] (order ++ [a]) = _
      have hN2 : (b :: r).Nodup := (List.nodup_cons.mp hN).2
      have hbr : b ∉ r := (List.nodup_cons.mp hN2).1
      have hindeg2 : ∀ x ∈ r, (fun x => if x = b then indeg b - 1 else indeg x) x = 1 := by
        intro x hx
        have hxb : x ≠ b := fun hh => hbr (hh ▸ hx)
        simp only [if_neg hxb]
        exact hindeg x (by simp [hx])
      have hrun := ih b (fun x => if x = b then indeg b - 1 else indeg x)
        (order ++ [a]) f hchain2 hN2 hindeg2 (by simp only [List.length_cons] at hfuel; omega)
      rw [hrun]
      simp


lemma appendMissing_sub : ∀ {ids order : List String},
    (∀ x ∈ ids, x ∈ order) → appendMissing order ids = order := by
  intro ids
  induction ids with
  | nil => exact fun _ => rfl
  | cons a t ih =>
    intro order h
    show appendMissing (if a ∈ order then order else order ++ [a]) t = order
    rw [if_pos (h a (by simp))]
    exact ih (fun x hx => h x (by simp [hx]))

/-- C5: with zero binding-derived edges, the traversal is exactly the
graph-node ids sorted by `(x asc, y asc)` — the positional chain heuristic
collapses the Kahn walk to the sorted order.  The sort is a stable
permutation of the graph nodes ordered by `posLE`. -/
theorem c5_positional_fallback (all : List Element)
    (hNodup : (graphIds all).Nodup) (hEdges : edgeList all = []) :
    getTraversalOrder all =
      (List.insertionSort posLE (graphNodes all)).map (·.id) ∧
    (List.insertionSort posLE (graphNodes all)).Pairwise posLE ∧
    (List.insertionSort posLE (graphNodes all)).Perm (graphNodes all) := by
  refine ⟨?_, List.sorted_insertionSort posLE _, List.perm_insertionSort posLE _⟩
  have hs_perm : ((List.insertionSort posLE (graphNodes all)).map (·.id)).Perm
      (graphIds all) :=
    (List.perm_insertionSort posLE (graphNodes all)).map (·.id)
  have hsN : ((List.insertionSort posLE (graphNodes all)).map (·.id)).Nodup :=
    (hs_perm.nodup_iff).mpr hNodup
  have hEff : effectiveEdges all =
      chainPairs ((List.insertionSort posLE (graphNodes all)).map (·.id)) := by
    unfold effectiveEdges
    rw [if_pos hEdges]
    unfold fallbackEdges
    exact dedupAppend_eq_self (chainPairs_nodup hsN)
  by_cases hall : all = []
  case pos =>
    subst hall
    simp [getTraversalOrder, graphNodes]
  case neg =>
    unfold getTraversalOrder
    rw [if_neg hall]
    unfold traversalFromGraph kahnVisited
    rw [hEff]
    unfold seedQueue
    rw [dedupAppend_eq_self hNodup]
    cases hs_case : (List.insertionSort posLE (graphNodes all)).map (·.id) with
    | nil =>
      have hids : graphIds all = [] := by
        have hl := hs_perm.length_eq
        rw [hs_case] at hl
        exact List.length_eq_zero.mp hl.symm
      rw [hids]
      rw [show List.filter _ ([] : List String) = [] from rfl, kahnLoop_nil]
      rfl
    | cons a srest =>
      have hs_perm2 : (a :: srest).Perm (graphIds all) := hs_case ▸ hs_perm
      have hsN2 : (a :: srest).Nodup := hs_case ▸ hsN
      have haN : a ∉ srest := (List.nodup_cons.mp hsN2).1
      have hindeg : ∀ x, indegOf (chainPairs (a :: srest)) x =
          if x ∈ srest then 1 else 0 := fun x => by
        have := indeg_chainPairs hsN2 x
        simpa using this
      have hseed : (graphIds all).filter
          (fun id => decide (indegOf (chainPairs (a :: srest)) id = 0)) = [a] := by
        apply filter_unique hNodup (hs_perm2.mem_iff.mp (by simp))
        intro x hx
        rw [decide_eq_true_eq, hindeg x]
        constructor
        · intro h0
          have hxs : x ∈ a :: srest := hs_perm2.mem_iff.mpr hx
          rw [List.mem_cons] at hxs
          rcases hxs with rfl | hxr
          · rfl
          · rw [if_pos hxr] at h0
            exact absurd h0 (by norm_num)
        · rintro rfl
          rw [if_neg haN]
      rw [hseed]
      have hchain : chainAdj (succsOf (chainPairs (a :: srest))) (a :: srest) :=
        succsOf_chainPairs hsN2
      have hrun := kahn_on_chain (succsOf (chainPairs (a :: srest))) srest a
        (indegOf (chainPairs (a :: srest))) [] ((graphIds all).length + 1) hchain
        hsN2 (fun x hx => by rw [hindeg x, if_pos hx])
        (by
          have hl := hs_perm2.length_eq
          simp only [List.length_cons] at hl
          omega)
      rw [hrun, List.nil_append]
      exact appendMissing_sub (fun x hx => hs_perm2.mem_iff.mpr hx)

/-- C5 witness: three unconnected nodes are traversed in `(x, y)` order. -/
theorem c5_witness :
    ((graphIds fallbackScene).Nodup ∧ edgeList fallbackScene = []) ∧
    getTraversalOrder fallbackScene =
      (List.insertionSort posLE (graphNodes fallbackScene)).map (·.id) :=
  ⟨⟨by decide, by decide⟩,
    (c5_positional_fallback fallbackScene (by decide) (by decide)).1⟩


/-! ### Claims C2 and C3 -/

/-- C2: for every focal node and collection, the neighbors of
`getElementContext` are exactly the elements with a different id whose
Euclidean center-to-center distance is strictly less than 400 (centers
`(x + width/2, y + height/2)` with absent numerics defaulting to 0); on the
five-distance scene `[50, 100, 399, 400, 500]` exactly the three nodes under
400 are retained, the nodes at exactly 400 and at 500 being excluded. -/
theorem c2_neighbor_retention :
    (∀ (el : Element) (all : List Element) (nc : ElementContext),
      nc ∈ (getElementContext (some el) all).neighbors ↔
        ∃ o, o ∈ all ∧ o.id ≠ el.id ∧
          Real.sqrt ((sqDist el o : ℚ) : ℝ) < 400 ∧ nc = neighborEntry el o) ∧
    ((getElementContext (some focal5) scene5).neighbors).map (·.id) =
      ["n50", "n100", "n399"] := by
  constructor
  · intro el all nc
    rw [mem_context_neighbors, mem_rawNeighbors]
    constructor
    · rintro ⟨o, h1, h2, h3, rfl⟩
      exact ⟨o, h1, h2, (sqrt_lt_400 _).mpr h3, rfl⟩
    · rintro ⟨o, h1, h2, h3, rfl⟩
      exact ⟨o, h1, h2, (sqrt_lt_400 _).mp h3, rfl⟩
  · rw [neighbors5]
    rfl

/-- C3: the neighbors of `getElementContext` are sorted ascending by their
distance field (nearest first), stably — each distance class keeps the
retained input order — and every distance field is the Euclidean
center-to-center distance rounded to the nearest integer. -/
theorem c3_neighbor_sorting (el : Element) (all : List Element) :
    ((getElementContext (some el) all).neighbors).Pairwise ctxLE ∧
    ((getElementContext (some el) all).neighbors).Perm (rawNeighbors el all) ∧
    (∀ d : ℤ, ((getElementContext (some el) all).neighbors).filter
        (fun n => decide (ctxKey n = d)) =
      (rawNeighbors el all).filter (fun n => decide (ctxKey n = d))) ∧
    (∀ o : Element, (neighborEntry el o).distance =
      some (round (Real.sqrt ((sqDist el o : ℚ) : ℝ)))) := by
  refine ⟨?_, ?_, ?_, ?_⟩
  · rw [context_neighbors_eq]
    exact List.sorted_insertionSort ctxLE _
  · rw [context_neighbors_eq]
    exact List.perm_insertionSort ctxLE _
  · intro d
    rw [context_neighbors_eq]
    exact insertionSort_filter_key d _
  · intro o
    show some ((roundSqrt (sqDist el o) : ℕ) : ℤ) = _
    rw [roundSqrt_eq_round _ (sqDist_nonneg el o)]

end DiagramGenie
